import Mathlib

/-!
Verification of the AMQP argument-list codec generator (`codegen_helpers.py`).

The source is a Python code generator that emits Ruby statements implementing
the encode/decode methods for one protocol method's argument list.  We embed it
in two layers, both faithful to the source:

* a deep embedding of the emitted Ruby statements (`EStmt`, `DStmt`) together
  with generator functions (`genSingleEncode`, `genSingleDecode`,
  `genEncodeMethodDefinition`, `genDecodeMethodDefinition`) that mirror the
  Python line by line (mutation is rendered as recursion with explicit state);
* an interpreter for those statements (`execE`, `execD`) giving the emitted
  Ruby its actual semantics: `str[offset, n]` slicing, `unpack` with the
  signed `:c` directive, `pack` wrapping, `Integer#chr` range errors, and
  `nil` propagation.

Repository code outside `codegen_helpers.py` (`AMQ::Hacks.pack_64_big_endian`,
`AMQ::Protocol::Table.encode/decode/length`, and the method scaffold that
initialises `pieces = []` / `offset = 0` and joins the pieces) is modelled
from the spec; each such definition says so in its doc comment.
-/

set_option maxRecDepth 16000

namespace AMQ

/-- Wire domains of the protocol, as resolved by the spec collaborator.  The
`unknown` constructor carries an unrecognized tag and drives the generator's
else-branches (`raise "Illegal domain ..."`). -/
inductive Domain where
  | shortstr
  | longstr
  | octet
  | short
  | long
  | longlong
  | timestamp
  | bit
  | table
  | unknown (tag : String)
deriving DecidableEq

/-- Failures, at generation time or while running the emitted Ruby code.
`illegalDomain` is the generator's else-branch raise, `unsupportedDomain` the
raise on a lone `bit`, `truncatedInput` is raised by the (spec-modelled)
`Table.decode`, `rangeError` is Ruby's `RangeError` from `Integer#chr`, and
`crash` stands for the remaining Ruby runtime errors (`NoMethodError` or
`TypeError` from using `nil` where a string or integer is required). -/
inductive Err where
  | illegalDomain
  | unsupportedDomain
  | truncatedInput
  | rangeError
  | crash
deriving DecidableEq

/-- A method argument as the generator sees it: the Ruby variable name and the
(unresolved) domain. -/
structure Field where
  ruby_name : String
  domain : Domain
deriving DecidableEq

/-- Domain resolution.  Per spec section 1 the specification-loading machinery
is an external collaborator that supplies, for each field, an already resolved
primitive domain, so resolution is the identity on our `Domain` values. -/
def resolveDomain (d : Domain) : Domain := d

/-- The Ruby statements emitted by the encode generator, one constructor per
distinct statement shape in `genSingleEncode` / `genEncodeMethodDefinition`. -/
inductive EStmt where
  /-- `pieces << v.bytesize.chr` -/
  | pushLenChr (f : String)
  /-- `pieces << v` -/
  | pushValue (f : String)
  /-- `pieces << [v.bytesize].pack(PACK_CACHE[:N])` -/
  | pushPackBytesizeN (f : String)
  /-- `pieces << [v].pack(PACK_CACHE[:c])` -/
  | pushPackC (f : String)
  /-- `pieces << [v].pack(PACK_CACHE[:n])` -/
  | pushPackN16 (f : String)
  /-- `pieces << [v].pack(PACK_CACHE[:N])` -/
  | pushPackN32 (f : String)
  /-- `pieces << AMQ::Hacks.pack_64_big_endian(v)` -/
  | pushPack64 (f : String)
  /-- `pieces << AMQ::Protocol::Table.encode(v)` -/
  | pushTableEncode (f : String)
  /-- `bit_buffer = 0` -/
  | bitBufferZero
  /-- `bit_buffer = bit_buffer | (1 << i) if v` -/
  | bitOrIf (f : String) (i : Nat)
  /-- `pieces << [bit_buffer].pack(PACK_CACHE[:c])` -/
  | pushBitBuffer
deriving DecidableEq

/-- Ruby `unpack` directives used by the emitted decode statements.  `n2first`
is the `:N2` directive followed by `.first`, which yields the first 32-bit
big-endian group only. -/
inductive Fmt where
  | c
  | n16
  | n32
  | n2first
deriving DecidableEq

/-- The Ruby statements emitted by the decode generator, one constructor per
distinct statement shape in `genSingleDecode` / `genDecodeMethodDefinition`. -/
inductive DStmt where
  /-- `length = data[offset, w].unpack(fmt)[0]` -/
  | lengthUnpack (window : Nat) (fmt : Fmt)
  /-- `offset += k` -/
  | offsetAddConst (k : Nat)
  /-- `x = data[offset, length]` -/
  | assignSliceByLength (f : String)
  /-- `offset += length` -/
  | offsetAddLength
  /-- `x = data[offset, w].unpack(fmt).first` -/
  | assignUnpack (f : String) (window : Nat) (fmt : Fmt)
  /-- `x = AMQ::Hacks.unpack_64_big_endian(data[offset, 8]).first` -/
  | assignUnpack64 (f : String)
  /-- `bit_buffer = data[offset, 2].unpack(PACK_CACHE[:c]).first` -/
  | bitBufferLoad
  /-- `x = (bit_buffer & (1 << i)) != 0` -/
  | assignBit (f : String) (i : Nat)
  /-- `table_length = Table.length(data[offset, 5])` -/
  | tableLengthAssign
  /-- `x = Table.decode(data[offset, table_length - offset + 1])` -/
  | assignTableDecode (f : String)
deriving DecidableEq

/-- `genSingleEncode(spec, cValue, unresolved_domain)`: the statements emitted
for one non-bit field, mirroring the Python branch by branch.  `bit` raises
(`"Can't encode bit in genSingleEncode"`), the else-branch raises
(`"Illegal domain in genSingleEncode"`). -/
def genSingleEncode (cValue : String) (unresolved_domain : Domain) :
    Except Err (List EStmt) :=
  match resolveDomain unresolved_domain with
  | .shortstr => .ok [.pushLenChr cValue, .pushValue cValue]
  | .longstr => .ok [.pushPackBytesizeN cValue, .pushValue cValue]
  | .octet => .ok [.pushPackC cValue]
  | .short => .ok [.pushPackN16 cValue]
  | .long => .ok [.pushPackN32 cValue]
  | .longlong => .ok [.pushPack64 cValue]
  | .timestamp => .ok [.pushPack64 cValue]
  | .bit => .error .unsupportedDomain
  | .table => .ok [.pushTableEncode cValue]
  | .unknown _ => .error .illegalDomain

/-- `genSingleDecode(spec, field)`: the statements emitted for one non-bit
field, mirroring the Python branch by branch (the `known_hosts` branch only
prints to stderr and emits nothing, so it does not affect the returned
buffer).  Note the source's oversized slice windows (2 for `shortstr`'s 1-byte
length, 5 for `long`, 3 for `short`, 7 for `timestamp`) are kept as written. -/
def genSingleDecode (field : Field) : Except Err (List DStmt) :=
  match resolveDomain field.domain with
  | .shortstr =>
      .ok [.lengthUnpack 2 .c, .offsetAddConst 1,
           .assignSliceByLength field.ruby_name, .offsetAddLength]
  | .longstr =>
      .ok [.lengthUnpack 5 .n32, .offsetAddConst 4,
           .assignSliceByLength field.ruby_name, .offsetAddLength]
  | .octet => .ok [.assignUnpack field.ruby_name 1 .c, .offsetAddConst 1]
  | .short => .ok [.assignUnpack field.ruby_name 3 .n16, .offsetAddConst 2]
  | .long => .ok [.assignUnpack field.ruby_name 5 .n32, .offsetAddConst 4]
  | .longlong => .ok [.assignUnpack64 field.ruby_name, .offsetAddConst 8]
  | .timestamp =>
      .ok [.assignUnpack field.ruby_name 7 .n2first, .offsetAddConst 8]
  | .bit => .error .unsupportedDomain
  | .table => .ok [.tableLengthAssign, .assignTableDecode field.ruby_name]
  | .unknown _ => .error .illegalDomain

/-- The `finishBits` closure of `genEncodeMethodDefinition`: emit
`pieces << [bit_buffer].pack(PACK_CACHE[:c])` when `bit_index is not None`. -/
def finishBits : Option Nat → List EStmt
  | none => []
  | some _ => [.pushBitBuffer]

/-- The loop body of `genEncodeMethodDefinition`, with the mutable
`bit_index` rendered as an explicit parameter.  On a bit field: when
`bit_index is None` emit `bit_buffer = 0` and start at index 0; when
`bit_index >= 8` flush, emit `bit_buffer = 0` and restart at index 0;
then emit the conditional OR and increment.  On a non-bit field: flush any
open run, reset `bit_index` to `None` and append `genSingleEncode`.  At the
end of the argument list, flush any open run. -/
def genEncodeGo (bit_index : Option Nat) : List Field → Except Err (List EStmt)
  | [] => .ok (finishBits bit_index)
  | f :: rest =>
    if resolveDomain f.domain = .bit then
      match bit_index with
      | none => do
          pure ([.bitBufferZero, .bitOrIf f.ruby_name 0] ++
                (← genEncodeGo (some 1) rest))
      | some k =>
          if 8 ≤ k then do
            pure ([.pushBitBuffer, .bitBufferZero, .bitOrIf f.ruby_name 0] ++
                  (← genEncodeGo (some 1) rest))
          else do
            pure ([.bitOrIf f.ruby_name k] ++ (← genEncodeGo (some (k + 1)) rest))
    else do
      pure (finishBits bit_index ++ (← genSingleEncode f.ruby_name f.domain) ++
            (← genEncodeGo none rest))

/-- `genEncodeMethodDefinition(spec, m)`: the statement list of the generated
encode method for the argument list `m`. -/
def genEncodeMethodDefinition (m : List Field) : Except Err (List EStmt) :=
  genEncodeGo none m

/-- The loop body of `genDecodeMethodDefinition`, with the mutable `bitindex`
rendered as an explicit parameter.  On a bit field the Python normalises
`bitindex` (`None` or `>= 8` become 0) and then emits the three statements
(octet load, `offset += 1`, the boolean assignment testing bit `bitindex`)
ONLY inside `if bitindex == 0:` — so fields at positions 1..7 of a group get
no assignment at all (the source carries the comment
`#### TODO: ADD bitindex TO THE buffer` at this point). -/
def genDecodeGo (bitindex : Option Nat) : List Field → Except Err (List DStmt)
  | [] => .ok []
  | f :: rest =>
    if resolveDomain f.domain = .bit then
      let k := match bitindex with
        | none => 0
        | some j => if 8 ≤ j then 0 else j
      let emitted := if k = 0 then
          [DStmt.bitBufferLoad, .offsetAddConst 1, .assignBit f.ruby_name k]
        else []
      do pure (emitted ++ (← genDecodeGo (some (k + 1)) rest))
    else do
      pure ((← genSingleDecode f) ++ (← genDecodeGo none rest))

/-- `genDecodeMethodDefinition(spec, m)`: the statement list of the generated
decode method for the argument list `m`. -/
def genDecodeMethodDefinition (m : List Field) : Except Err (List DStmt) :=
  genDecodeGo none m

/-- Caller-supplied values for the encode side: Ruby strings (as byte lists),
integers, booleans and tables (a table value is represented by its encoded
body bytes, which is all the generated statements observe of it). -/
inductive Value where
  | vstr (bytes : List Nat)
  | vint (v : Int)
  | vbool (b : Bool)
  | vtab (body : List Nat)
deriving DecidableEq

/-- Values produced by the generated decode statements.  `dnil` is Ruby `nil`,
which `unpack` yields on a too-short slice and `str[i, n]` yields when out of
range. -/
inductive DVal where
  | dnil
  | dint (v : Int)
  | dstr (bytes : List Nat)
  | dbool (b : Bool)
  | dtab (body : List Nat)
deriving DecidableEq

/-- Ruby truthiness of a condition value: everything except `false` (and
`nil`, which `Value` does not contain) is true. -/
def truthy : Value → Bool
  | .vbool b => b
  | _ => true

/-- Big-endian value of a byte list. -/
def beVal (s : List Nat) : Nat :=
  s.foldl (fun a b => a * 256 + b) 0

/-- Big-endian bytes of `v`, `w` bytes wide (Ruby `pack` keeps the low
`8 * w` bits). -/
def beBytes : Nat → Nat → List Nat
  | 0, _ => []
  | w + 1, v => beBytes w (v / 256) ++ [v % 256]

/-- Ruby `str[start, len]`: `nil` when `len` is negative or `start` is out of
range (a negative `start` counts from the end; `start == size` yields the
empty string), otherwise up to `len` bytes from `start`. -/
def rubySlice (data : List Nat) (start len : Int) : Option (List Nat) :=
  let n : Int := data.length
  let start' : Int := if start < 0 then start + n else start
  if start' < 0 ∨ n < start' ∨ len < 0 then none
  else some ((data.drop start'.toNat).take len.toNat)

/-- Ruby `s.unpack(fmt).first` on a byte string.  `:c` is the SIGNED 8-bit
directive (values 128..255 come back negative); `:n` and `:N` are unsigned
16/32-bit big-endian; `:N2` followed by `.first` yields the first 32-bit
group.  Each yields `nil` when the string is shorter than the group needs. -/
def unpackFmt (fmt : Fmt) (s : List Nat) : DVal :=
  match fmt with
  | .c =>
    match s with
    | [] => .dnil
    | b :: _ => .dint (if b < 128 then (b : Int) else (b : Int) - 256)
  | .n16 => if 2 ≤ s.length then .dint (beVal (s.take 2)) else .dnil
  | .n32 => if 4 ≤ s.length then .dint (beVal (s.take 4)) else .dnil
  | .n2first => if 4 ≤ s.length then .dint (beVal (s.take 4)) else .dnil

/-- Ruby's `(b & (1 << i)) != 0` on a (possibly negative, two's-complement)
integer, expressed arithmetically: bit `i` of `b`. -/
def rubyBitTest (b : Int) (i : Nat) : Bool :=
  (b % (2 ^ (i + 1))) / (2 ^ i) == 1

/-- Modelled from the spec: `AMQ::Protocol::Table.decode` (spec sections 4.3
and 8) reads the 4-byte big-endian length first and fails with
`TruncatedInput` if the buffer has fewer bytes than declared; the declared
length bounds exactly which subsequent bytes form the body. -/
def tableDecodeModel (s : List Nat) : Except Err DVal :=
  if 4 ≤ s.length then
    let L := beVal (s.take 4)
    if L ≤ s.length - 4 then .ok (.dtab ((s.drop 4).take L))
    else .error .truncatedInput
  else .error .truncatedInput

/-- State of the generated Ruby encode method: the `pieces` array of byte
strings and the `bit_buffer` local (unassigned, hence `none`, until the
emitted `bit_buffer = 0` runs). -/
structure EState where
  pieces : List (List Nat)
  bit_buffer : Option Nat
deriving DecidableEq

/-- Append one byte string to `pieces` (Ruby `pieces << x`). -/
def pushPiece (st : EState) (x : List Nat) : EState :=
  { st with pieces := st.pieces ++ [x] }

/-- One step of the emitted encode statements under a valuation `env` of the
field variables.  `Integer#chr` raises `RangeError` outside 0..255; the
`pack` directives wrap to the low bits; `bytesize` on a non-string or reading
an unassigned `bit_buffer` is a crash.  (`pushValue` on a non-string can only
be reached after a `bytesize` call on the same variable has already crashed,
so modelling it as a crash is unobservable.) -/
def execE (env : String → Value) (stmt : EStmt) (st : EState) :
    Except Err EState :=
  match stmt with
  | .pushLenChr f =>
    match env f with
    | .vstr s =>
        if s.length ≤ 255 then .ok (pushPiece st [s.length])
        else .error .rangeError
    | _ => .error .crash
  | .pushValue f =>
    match env f with
    | .vstr s => .ok (pushPiece st s)
    | _ => .error .crash
  | .pushPackBytesizeN f =>
    match env f with
    | .vstr s => .ok (pushPiece st (beBytes 4 (s.length % 2 ^ 32)))
    | _ => .error .crash
  | .pushPackC f =>
    match env f with
    | .vint v => .ok (pushPiece st [(v % 256).toNat])
    | _ => .error .crash
  | .pushPackN16 f =>
    match env f with
    | .vint v => .ok (pushPiece st (beBytes 2 (v % 2 ^ 16).toNat))
    | _ => .error .crash
  | .pushPackN32 f =>
    match env f with
    | .vint v => .ok (pushPiece st (beBytes 4 (v % 2 ^ 32).toNat))
    | _ => .error .crash
  | .pushPack64 f =>
    -- Modelled from the spec: `AMQ::Hacks.pack_64_big_endian` is the 8-byte
    -- big-endian unsigned encoding (spec section 4.1).
    match env f with
    | .vint v => .ok (pushPiece st (beBytes 8 (v % 2 ^ 64).toNat))
    | _ => .error .crash
  | .pushTableEncode f =>
    -- Modelled from the spec: `Table.encode` prepends the 4-byte big-endian
    -- length of the encoded body (spec section 4.3).
    match env f with
    | .vtab body => .ok (pushPiece st (beBytes 4 (body.length % 2 ^ 32) ++ body))
    | _ => .error .crash
  | .bitBufferZero => .ok { st with bit_buffer := some 0 }
  | .bitOrIf f i =>
    if truthy (env f) then
      match st.bit_buffer with
      | some b => .ok { st with bit_buffer := some (b ||| (1 <<< i)) }
      | none => .error .crash
    else .ok st
  | .pushBitBuffer =>
    match st.bit_buffer with
    | some b => .ok (pushPiece st [b % 256])
    | none => .error .crash

/-- Run a list of encode statements in order. -/
def execEList (env : String → Value) : List EStmt → EState → Except Err EState
  | [], st => .ok st
  | stmt :: rest, st => do execEList env rest (← execE env stmt st)

/-- The generated encode method for argument list `m` under valuation `env`:
generate the statements, run them from the scaffold's initial state, and join
the pieces.  (The scaffold around the generated statements — `pieces = []`
and the final `pieces.flatten` — is repository code outside this file, modelled
from the spec's driver description, section 4.4: concatenate all emitted
chunks in order.) -/
def runEncode (m : List Field) (env : String → Value) : Except Err (List Nat) := do
  let stmts ← genEncodeMethodDefinition m
  let st ← execEList env stmts ⟨[], none⟩
  pure st.pieces.flatten

/-- The single-field encode path (`genSingleEncode` alone), run on one value:
generate the statements for one field and execute them from an empty state. -/
def runSingleEncode (d : Domain) (v : Value) : Except Err (List Nat) := do
  let stmts ← genSingleEncode "val" d
  let st ← execEList (fun _ => v) stmts ⟨[], none⟩
  pure st.pieces.flatten

/-- State of the generated Ruby decode method: the input `data`, the shared
cursor `offset`, the locals `length`, `bit_buffer` and `table_length`
(unassigned until first written), and the assigned field variables in
most-recent-first order. -/
structure DState where
  data : List Nat
  offset : Int
  lengthVar : Option DVal
  bit_buffer : Option DVal
  tableLengthVar : Option DVal
  env : List (String × DVal)
deriving DecidableEq

/-- The scaffold's initial decode state: `offset = 0`, no locals assigned. -/
def initDState (data : List Nat) : DState :=
  ⟨data, 0, none, none, none, []⟩

/-- One step of the emitted decode statements.  Slicing out of range yields
`nil`, on which a subsequent method call (`unpack`, `Table.length`) or
arithmetic is a crash; `Table.length` and `Table.decode` are modelled from
the spec (sections 4.3 and 8 — `Table.length` reads the 4-byte big-endian
declared body length). -/
def execD (stmt : DStmt) (st : DState) : Except Err DState :=
  match stmt with
  | .lengthUnpack w fmt =>
    match rubySlice st.data st.offset w with
    | none => .error .crash
    | some s => .ok { st with lengthVar := some (unpackFmt fmt s) }
  | .offsetAddConst k => .ok { st with offset := st.offset + k }
  | .assignSliceByLength f =>
    match st.lengthVar with
    | some (.dint L) =>
        let v := match rubySlice st.data st.offset L with
          | none => DVal.dnil
          | some s => DVal.dstr s
        .ok { st with env := (f, v) :: st.env }
    | _ => .error .crash
  | .offsetAddLength =>
    match st.lengthVar with
    | some (.dint L) => .ok { st with offset := st.offset + L }
    | _ => .error .crash
  | .assignUnpack f w fmt =>
    match rubySlice st.data st.offset w with
    | none => .error .crash
    | some s => .ok { st with env := (f, unpackFmt fmt s) :: st.env }
  | .assignUnpack64 f =>
    -- Modelled from the spec: `AMQ::Hacks.unpack_64_big_endian(..).first`
    -- reads 8 bytes as one big-endian unsigned 64-bit integer (section 4.1),
    -- `nil` when fewer than 8 bytes are available (unpack convention).
    match rubySlice st.data st.offset 8 with
    | none => .error .crash
    | some s =>
        let v := if 8 ≤ s.length then DVal.dint (beVal (s.take 8)) else DVal.dnil
        .ok { st with env := (f, v) :: st.env }
  | .bitBufferLoad =>
    match rubySlice st.data st.offset 2 with
    | none => .error .crash
    | some s => .ok { st with bit_buffer := some (unpackFmt .c s) }
  | .assignBit f i =>
    match st.bit_buffer with
    | some (.dint b) =>
        .ok { st with env := (f, DVal.dbool (rubyBitTest b i)) :: st.env }
    | _ => .error .crash
  | .tableLengthAssign =>
    match rubySlice st.data st.offset 5 with
    | none => .error .crash
    | some s =>
        let v := if 4 ≤ s.length then DVal.dint (beVal (s.take 4)) else DVal.dnil
        .ok { st with tableLengthVar := some v }
  | .assignTableDecode f =>
    match st.tableLengthVar with
    | some (.dint L) =>
      match rubySlice st.data st.offset (L - st.offset + 1) with
      | none => .error .crash
      | some s =>
        match tableDecodeModel s with
        | .error e => .error e
        | .ok v => .ok { st with env := (f, v) :: st.env }
    | _ => .error .crash

/-- Run a list of decode statements in order. -/
def execDList : List DStmt → DState → Except Err DState
  | [], st => .ok st
  | stmt :: rest, st => do execDList rest (← execD stmt st)

/-- The generated decode method for argument list `m` on input buffer `data`:
generate the statements, run them from the scaffold's initial state
(`offset = 0`), and return the assigned field variables (most recent first)
together with the final cursor. -/
def runDecode (m : List Field) (data : List Nat) :
    Except Err (List (String × DVal) × Int) := do
  let stmts ← genDecodeMethodDefinition m
  let st ← execDList stmts (initDState data)
  pure (st.env, st.offset)

/-- Specification-side bit-run packing, following the spec's words (section
4.2): an accumulator octet starting at zero; for each boolean in run order
set bit `i` (least significant bit first) when the value is true; flush and
start a fresh accumulator (whose bit 0 is the next boolean) every 8 booleans;
flush whatever is accumulated when the run ends. -/
def specGo (i acc : Nat) : List Bool → List Nat
  | [] => [acc]
  | v :: rest =>
    if i < 8 then specGo (i + 1) (if v then acc ||| (1 <<< i) else acc) rest
    else acc :: specGo 1 (if v then 1 else 0) rest

/-- Specification-side packing of a whole bit run (spec section 4.2): a run
of 0 booleans emits nothing, otherwise pack with `specGo` from bit 0 of a
zero accumulator. -/
def specBitRunPack : List Bool → List Nat
  | [] => []
  | v :: rest => specGo 0 0 (v :: rest)

/-- Ten consecutive bit fields, the schema of the spec's bit-run example. -/
def tenBitFields : List Field :=
  [⟨"f0", .bit⟩, ⟨"f1", .bit⟩, ⟨"f2", .bit⟩, ⟨"f3", .bit⟩, ⟨"f4", .bit⟩,
   ⟨"f5", .bit⟩, ⟨"f6", .bit⟩, ⟨"f7", .bit⟩, ⟨"f8", .bit⟩, ⟨"f9", .bit⟩]

/-- The alternating valuation `[T,F,T,F,T,F,T,F,T,F]` on `tenBitFields`. -/
def altBits : String → Value := fun nm =>
  if nm ∈ (["f0", "f2", "f4", "f6", "f8"] : List String) then .vbool true
  else .vbool false

/-- The eight domains for which `genSingleEncode` / `genSingleDecode` emit
statements rather than raising: all recognized domains except `bit`. -/
def nonBitEncodableDomains : List Domain :=
  [.shortstr, .longstr, .octet, .short, .long, .longlong, .timestamp, .table]

end AMQ

namespace AMQ

/-- Running a concatenation of encode statements runs the two parts in
sequence. -/
theorem execEList_append (env : String → Value) (l1 l2 : List EStmt)
    (st : EState) :
    execEList env (l1 ++ l2) st = (execEList env l1 st).bind (execEList env l2) := by
  induction l1 generalizing st with
  | nil => rfl
  | cons stmt t ih =>
    simp only [List.cons_append, execEList]
    cases execE env stmt st with
    | error e => rfl
    | ok st' => simpa [Except.bind] using ih st'

/-- Flattening singleton chunks recovers the byte list. -/
theorem flatten_map_singleton (l : List Nat) :
    (l.map fun x => [x]).flatten = l := by
  induction l with
  | nil => rfl
  | cons a t ih => simp [ih]

/-- Setting one more bit below position 8 keeps the accumulator an octet. -/
theorem bitAcc_lt (b k : Nat) (hb : b < 256) (hk : k < 8) :
    b ||| (1 <<< k) < 256 := by
  have h1 : (1 : Nat) <<< k = 2 ^ k := by rw [Nat.shiftLeft_eq, one_mul]
  have h2 : (2 : Nat) ^ k ≤ 2 ^ 7 := Nat.pow_le_pow_right (by omega) (by omega)
  have h3 := Nat.or_lt_two_pow (n := 8) (by omega : b < 2 ^ 8)
    (by rw [h1]; omega : (1 : Nat) <<< k < 2 ^ 8)
  omega

/-- Mid-run invariant for the generated encode method on an all-bit argument
list: from a state whose `bit_buffer` holds the partial octet `b` with `k`
bits consumed (`1 ≤ k ≤ 8`), the remaining generated statements extend
`pieces` with exactly the octets `specGo k b` of the remaining booleans. -/
theorem encodeGo_bits (env : String → Value) :
    ∀ (fs : List Field) (k b : Nat) (p : List (List Nat)),
      (∀ f ∈ fs, f.domain = Domain.bit) → 1 ≤ k → k ≤ 8 → b < 256 →
      ∃ (stmts : List EStmt) (st : EState),
        genEncodeGo (some k) fs = .ok stmts ∧
        execEList env stmts ⟨p, some b⟩ = .ok st ∧
        st.pieces =
          p ++ (specGo k b (fs.map fun f => truthy (env f.ruby_name))).map
            (fun x => [x]) := by
  intro fs
  induction fs with
  | nil =>
    intro k b p _ _ _ hb
    refine ⟨[.pushBitBuffer], ⟨p ++ [[b % 256]], some b⟩, rfl, rfl, ?_⟩
    simp [specGo, Nat.mod_eq_of_lt hb]
  | cons f rest ih =>
    intro k b p hall hk1 hk8 hb
    have hbit : f.domain = Domain.bit := hall f (List.mem_cons_self f rest)
    have hall' : ∀ g ∈ rest, g.domain = Domain.bit :=
      fun g hg => hall g (List.mem_cons_of_mem f hg)
    by_cases hk : 8 ≤ k
    · -- flush, fresh accumulator, set bit 0
      cases ht : truthy (env f.ruby_name) with
      | false =>
        obtain ⟨stmts', st', hg, he, hp⟩ := ih 1 0 (p ++ [[b % 256]]) hall'
          (by omega) (by omega) (by omega)
        refine ⟨[.pushBitBuffer, .bitBufferZero, .bitOrIf f.ruby_name 0] ++ stmts',
          st', ?_, ?_, ?_⟩
        · simp [genEncodeGo, resolveDomain, hbit, if_pos hk, hg, Except.bind]
        · rw [execEList_append]
          simpa [execEList, execE, pushPiece, ht, Except.bind] using he
        · rw [hp]
          have : ¬ k < 8 := by omega
          simp [specGo, this, Nat.mod_eq_of_lt hb, ht, List.append_assoc]
      | true =>
        obtain ⟨stmts', st', hg, he, hp⟩ := ih 1 (0 ||| (1 <<< 0)) (p ++ [[b % 256]])
          hall' (by omega) (by omega) (by decide)
        refine ⟨[.pushBitBuffer, .bitBufferZero, .bitOrIf f.ruby_name 0] ++ stmts',
          st', ?_, ?_, ?_⟩
        · simp [genEncodeGo, resolveDomain, hbit, if_pos hk, hg, Except.bind]
        · rw [execEList_append]
          simpa [execEList, execE, pushPiece, ht, Except.bind] using he
        · rw [hp]
          have : ¬ k < 8 := by omega
          have h01 : (0 : Nat) ||| (1 <<< 0) = 1 := by decide
          simp [specGo, this, Nat.mod_eq_of_lt hb, ht, h01, List.append_assoc]
    · -- set bit k in the open accumulator
      cases ht : truthy (env f.ruby_name) with
      | false =>
        obtain ⟨stmts', st', hg, he, hp⟩ := ih (k + 1) b p hall'
          (by omega) (by omega) hb
        refine ⟨[.bitOrIf f.ruby_name k] ++ stmts', st', ?_, ?_, ?_⟩
        · simp [genEncodeGo, resolveDomain, hbit, if_neg hk, hg, Except.bind]
        · simpa [execEList, execE, ht, Except.bind] using he
        · rw [hp]
          simp [specGo, (by omega : k < 8), ht]
      | true =>
        obtain ⟨stmts', st', hg, he, hp⟩ := ih (k + 1) (b ||| (1 <<< k)) p hall'
          (by omega) (by omega) (bitAcc_lt b k hb (by omega))
        refine ⟨[.bitOrIf f.ruby_name k] ++ stmts', st', ?_, ?_, ?_⟩
        · simp [genEncodeGo, resolveDomain, hbit, if_neg hk, hg, Except.bind]
        · simpa [execEList, execE, ht, Except.bind] using he
        · rw [hp]
          simp [specGo, (by omega : k < 8), ht]

/-- The generated encode method on an argument list consisting solely of bit
fields produces exactly the spec-described bit-run packing. -/
theorem bitRun_encode_spec (fs : List Field) (env : String → Value)
    (hall : ∀ f ∈ fs, f.domain = Domain.bit) :
    runEncode fs env =
      .ok (specBitRunPack (fs.map fun f => truthy (env f.ruby_name))) := by
  cases fs with
  | nil => rfl
  | cons f rest =>
    have hbit : f.domain = Domain.bit := hall f (List.mem_cons_self f rest)
    have hall' : ∀ g ∈ rest, g.domain = Domain.bit :=
      fun g hg => hall g (List.mem_cons_of_mem f hg)
    cases ht : truthy (env f.ruby_name) with
    | false =>
      obtain ⟨stmts', st', hg, he, hp⟩ := encodeGo_bits env rest 1 0 [] hall'
        (by omega) (by omega) (by omega)
      have hgen : genEncodeMethodDefinition (f :: rest) =
          .ok ([.bitBufferZero, .bitOrIf f.ruby_name 0] ++ stmts') := by
        simp [genEncodeMethodDefinition, genEncodeGo, resolveDomain, hbit, hg,
          Except.bind]
      have hexec : execEList env ([.bitBufferZero, .bitOrIf f.ruby_name 0] ++ stmts')
          ⟨[], none⟩ = .ok st' := by
        rw [execEList_append]
        simpa [execEList, execE, ht, Except.bind] using he
      simp only [List.cons_append, List.nil_append] at hexec
      simp [runEncode, hgen, hexec, Bind.bind, Except.bind, Functor.map,
        Except.map, Pure.pure, Except.pure, hp, flatten_map_singleton,
        specBitRunPack, specGo, ht]
    | true =>
      obtain ⟨stmts', st', hg, he, hp⟩ := encodeGo_bits env rest 1 (0 ||| (1 <<< 0))
        [] hall' (by omega) (by omega) (by decide)
      have hgen : genEncodeMethodDefinition (f :: rest) =
          .ok ([.bitBufferZero, .bitOrIf f.ruby_name 0] ++ stmts') := by
        simp [genEncodeMethodDefinition, genEncodeGo, resolveDomain, hbit, hg,
          Except.bind]
      have hexec : execEList env ([.bitBufferZero, .bitOrIf f.ruby_name 0] ++ stmts')
          ⟨[], none⟩ = .ok st' := by
        rw [execEList_append]
        simpa [execEList, execE, ht, Except.bind] using he
      simp only [List.cons_append, List.nil_append] at hexec
      simp [runEncode, hgen, hexec, Bind.bind, Except.bind, Functor.map,
        Except.map, Pure.pure, Except.pure, hp, flatten_map_singleton,
        specBitRunPack, specGo, ht]

end AMQ

namespace AMQ

/-- C1: the claimed schema round-trip `decode(S, encode(S, F)) == F` fails on
the generated code.  Failing input: schema `[("x", octet)]` with `F = {x ↦
255}`.  The generated encode packs the octet correctly (buffer `[0xFF]`), but
the generated decode unpacks it with the signed `:c` directive and yields
`x = -1`, so the field value is not restored. -/
theorem c1_roundtrip_fails_on_octet_255 :
    runEncode [⟨"x", Domain.octet⟩] (fun _ => Value.vint 255) = .ok [255] ∧
    runDecode [⟨"x", Domain.octet⟩] [255] =
      .ok ([("x", DVal.dint (-1))], 1) :=
  ⟨rfl, rfl⟩

/-- C2: the claim that EVERY field of a group of up to 8 bit fields is
assigned the test of bit `i mod 8` fails: for the two-bit schema
`[("a", bit), ("b", bit)]` the generated statement list contains an
assignment only for `a` (testing bit 0), and running it on the buffer
`[0x02]` (in which `b`'s encoded value is true) terminates with only `a`
assigned — `b` is never decoded at all. -/
theorem c2_bit_group_decodes_only_first_field :
    genDecodeMethodDefinition [⟨"a", Domain.bit⟩, ⟨"b", Domain.bit⟩] =
      .ok [.bitBufferLoad, .offsetAddConst 1, .assignBit "a" 0] ∧
    runDecode [⟨"a", Domain.bit⟩, ⟨"b", Domain.bit⟩] [2] =
      .ok ([("a", DVal.dbool false)], 1) :=
  ⟨rfl, rfl⟩

/-- C3: the claim that decoding a table field consumes exactly
`4 + declared_length` bytes and advances the shared cursor fails: the
generated statements for a table field contain no `offset +=` at all, and the
slice passed to `Table.decode` spans `table_length - offset + 1` bytes, which
can never contain the 4-byte prefix plus the body.  On the well-formed buffer
`[0,0,0,0, 0x07]` (an empty table followed by an octet field) the generated
decode fails with `TruncatedInput` instead of consuming 4 bytes and then
decoding `y = 7`. -/
theorem c3_table_decode_never_advances_cursor :
    genDecodeMethodDefinition [⟨"t", Domain.table⟩] =
      .ok [.tableLengthAssign, .assignTableDecode "t"] ∧
    runDecode [⟨"t", Domain.table⟩, ⟨"y", Domain.octet⟩] [0, 0, 0, 0, 7] =
      .error Err.truncatedInput :=
  ⟨rfl, rfl⟩

/-- C4 counterexample: decoding a `long` field from a buffer with only 3
trailing bytes does NOT fail with `TruncatedInput` as the claim states — the
generated decode raises nothing here. -/
theorem c4_counterexample_truncated_long_no_error :
    ¬ runDecode [⟨"x", Domain.long⟩] [1, 2, 3] = .error Err.truncatedInput := by
  have h : runDecode [⟨"x", Domain.long⟩] [1, 2, 3] =
      .ok ([("x", DVal.dnil)], 4) := rfl
  rw [h]
  simp

/-- C4 amended: decoding a `long` field from a buffer with only 3 trailing
bytes does not fail with `TruncatedInput`: for every 3-byte buffer the
generated code performs no truncation check, Ruby `unpack(:N)` on the 3-byte
slice yields `nil` for the field value, and the cursor still advances by the
full 4-byte width.  (Other fixed-width domains behave differently on short
buffers — e.g. a timestamp with 4..7 remaining bytes yields the high 32-bit
word, not `nil` — so the amendment is restricted to the claim's own negative
case.) -/
theorem c4_truncated_long_yields_nil (a b c : Nat) :
    runDecode [⟨"x", Domain.long⟩] [a, b, c] = .ok ([("x", DVal.dnil)], 4) :=
  rfl

/-- C5: the claim that a timestamp field decodes all 8 bytes as one
big-endian unsigned 64-bit value fails: the generated decode reads
`data[offset, 7].unpack(:N2).first`, i.e. only the FIRST 32-bit group (the
high word).  Failing input: the 8 bytes `00 00 00 01 00 00 00 02` (the
encoding of 4294967298, as the encode conjunct shows) decode to `ts = 1`,
not 4294967298; the cursor does advance by 8 as claimed. -/
theorem c5_timestamp_decode_drops_low_word :
    runEncode [⟨"ts", Domain.timestamp⟩] (fun _ => Value.vint 4294967298) =
      .ok [0, 0, 0, 1, 0, 0, 0, 2] ∧
    runDecode [⟨"ts", Domain.timestamp⟩] [0, 0, 0, 1, 0, 0, 0, 2] =
      .ok ([("ts", DVal.dint 1)], 8) :=
  ⟨rfl, rfl⟩

/-- C6: the generated encode method packs a run of consecutive bit fields
exactly as the spec describes — least-significant bit first in field order,
flushing an octet every 8 booleans and flushing the remainder when the run
ends (`specBitRunPack`); an empty run emits nothing; and the spec's concrete
example, 10 booleans `[T,F,T,F,T,F,T,F,T,F]`, yields the two octets `0x55`
then `0x01`. -/
theorem c6_bit_run_packing :
    (∀ (fs : List Field) (env : String → Value),
        (∀ f ∈ fs, f.domain = Domain.bit) →
        runEncode fs env =
          .ok (specBitRunPack (fs.map fun f => truthy (env f.ruby_name)))) ∧
    runEncode tenBitFields altBits = .ok [0x55, 0x01] ∧
    runEncode [] altBits = .ok [] :=
  ⟨bitRun_encode_spec, rfl, rfl⟩

/-- C6 witness: the general conjunct applied to the concrete one-bit schema
`[("a", bit)]` with value `true`. -/
theorem c6_bit_run_packing_witness :
    (∀ f ∈ ([⟨"a", Domain.bit⟩] : List Field), f.domain = Domain.bit) ∧
    runEncode [⟨"a", Domain.bit⟩] (fun _ => Value.vbool true) =
      .ok (specBitRunPack (([⟨"a", Domain.bit⟩] : List Field).map fun f =>
        truthy ((fun _ => Value.vbool true) f.ruby_name))) :=
  ⟨by decide, c6_bit_run_packing.1 [⟨"a", Domain.bit⟩]
    (fun _ => Value.vbool true) (by decide)⟩

/-- C7: the claim that an octet decodes as unsigned (0..255, never negative)
and that a shortstr length prefix of 128..255 is read as a positive length
fails: the generated decode uses the signed `:c` directive.  Byte `0xFF`
decodes as the octet value `-1`, and a shortstr whose length byte is `0x80`
(followed by 128 payload bytes) gets length `-128`, so the value slice
`data[offset, -128]` is `nil` and the cursor even moves backwards. -/
theorem c7_octet_and_shortstr_length_are_signed :
    runDecode [⟨"x", Domain.octet⟩] [255] = .ok ([("x", DVal.dint (-1))], 1) ∧
    runDecode [⟨"s", Domain.shortstr⟩] (128 :: List.replicate 128 65) =
      .ok ([("s", DVal.dnil)], -127) :=
  ⟨rfl, by rfl⟩

/-- C8: string encoding layout — `encode(shortstr, s)` is the single length
byte followed by the raw bytes (for the representable strings, of byte length
at most 255), `encode(longstr, s)` is the 4-byte big-endian length followed
by the raw bytes, and the spec's two concrete examples hold. -/
theorem c8_string_prefix_layout :
    (∀ s : List Nat, s.length ≤ 255 →
        runSingleEncode Domain.shortstr (Value.vstr s) = .ok (s.length :: s)) ∧
    (∀ s : List Nat, s.length < 2 ^ 32 →
        runSingleEncode Domain.longstr (Value.vstr s) =
          .ok (beBytes 4 s.length ++ s)) ∧
    runSingleEncode Domain.shortstr (Value.vstr [65, 66]) = .ok [2, 65, 66] ∧
    runSingleEncode Domain.longstr (Value.vstr []) = .ok [0, 0, 0, 0] := by
  refine ⟨?_, ?_, rfl, rfl⟩
  · intro s hs
    simp [runSingleEncode, genSingleEncode, resolveDomain, execEList, execE,
      pushPiece, hs, Bind.bind, Except.bind, Functor.map, Except.map,
      Pure.pure, Except.pure]
  · intro s hs
    have hs' : s.length % 4294967296 = s.length :=
      Nat.mod_eq_of_lt (by simpa using hs)
    simp [runSingleEncode, genSingleEncode, resolveDomain, execEList, execE,
      pushPiece, hs', Bind.bind, Except.bind, Functor.map, Except.map,
      Pure.pure, Except.pure]

/-- C8 witness: the general conjuncts applied at the spec's concrete
examples. -/
theorem c8_string_prefix_layout_witness :
    ([65, 66] : List Nat).length ≤ 255 ∧
    ([] : List Nat).length < 2 ^ 32 ∧
    runSingleEncode Domain.shortstr (Value.vstr [65, 66]) =
      .ok (([65, 66] : List Nat).length :: [65, 66]) ∧
    runSingleEncode Domain.longstr (Value.vstr []) =
      .ok (beBytes 4 ([] : List Nat).length ++ []) :=
  ⟨by decide, by decide, c8_string_prefix_layout.1 [65, 66] (by decide),
    c8_string_prefix_layout.2.1 [] (by decide)⟩

/-- C9: the single-field codec generators fail exactly off the eight
supported domains: `bit` fails with the unsupported-domain raise, an
unrecognized domain tag fails with the illegal-domain raise, and every other
recognized domain succeeds (`Except` structurally guarantees a failure
carries no partial statement output). -/
theorem c9_single_field_codec_failure_classification :
    (∀ (v : String) (d : Domain),
        (genSingleEncode v d).isOk = true ↔ d ∈ nonBitEncodableDomains) ∧
    (∀ v : String, genSingleEncode v Domain.bit = .error Err.unsupportedDomain) ∧
    (∀ (v t : String),
        genSingleEncode v (Domain.unknown t) = .error Err.illegalDomain) ∧
    (∀ f : Field,
        (genSingleDecode f).isOk = true ↔ f.domain ∈ nonBitEncodableDomains) ∧
    (∀ n : String, genSingleDecode ⟨n, Domain.bit⟩ = .error Err.unsupportedDomain) ∧
    (∀ (n t : String),
        genSingleDecode ⟨n, Domain.unknown t⟩ = .error Err.illegalDomain) := by
  refine ⟨?_, fun _ => rfl, fun _ _ => rfl, ?_, fun _ => rfl, fun _ _ => rfl⟩
  · intro v d
    cases d <;>
      simp [genSingleEncode, resolveDomain, nonBitEncodableDomains, Except.isOk,
        Except.toBool]
  · intro f
    obtain ⟨n, d⟩ := f
    cases d <;>
      simp [genSingleDecode, resolveDomain, nonBitEncodableDomains, Except.isOk,
        Except.toBool]

/-- C10: shortstr encoding has the implicit precondition `bytesize ≤ 255`:
the length prefix is `bytesize.chr` with no codec-side range check, so a
longer string dies with Ruby's `RangeError` — which is none of the codec's
own error kinds — and no byte output is produced, while every string of at
most 255 bytes encodes with the correct 1-byte prefix. -/
theorem c10_shortstr_255_byte_precondition :
    (∀ s : List Nat, 255 < s.length →
        runSingleEncode Domain.shortstr (Value.vstr s) = .error Err.rangeError) ∧
    (Err.rangeError ≠ Err.illegalDomain ∧ Err.rangeError ≠ Err.unsupportedDomain ∧
      Err.rangeError ≠ Err.truncatedInput) ∧
    (∀ s : List Nat, s.length ≤ 255 →
        runSingleEncode Domain.shortstr (Value.vstr s) = .ok (s.length :: s)) := by
  refine ⟨?_, by decide, ?_⟩
  · intro s hs
    have h : ¬ s.length ≤ 255 := by omega
    simp [runSingleEncode, genSingleEncode, resolveDomain, execEList, execE,
      pushPiece, h, Bind.bind, Except.bind, Functor.map, Except.map,
      Pure.pure, Except.pure]
  · intro s hs
    simp [runSingleEncode, genSingleEncode, resolveDomain, execEList, execE,
      pushPiece, hs, Bind.bind, Except.bind, Functor.map, Except.map,
      Pure.pure, Except.pure]

/-- C10 witness: a 256-byte string fails with `RangeError` and a 2-byte
string encodes with its 1-byte length prefix. -/
theorem c10_shortstr_255_byte_precondition_witness :
    255 < (List.replicate 256 0 : List Nat).length ∧
    runSingleEncode Domain.shortstr (Value.vstr (List.replicate 256 0)) =
      .error Err.rangeError ∧
    runSingleEncode Domain.shortstr (Value.vstr [65, 66]) =
      .ok (([65, 66] : List Nat).length :: [65, 66]) :=
  ⟨by simp, c10_shortstr_255_byte_precondition.1 (List.replicate 256 0) (by simp),
    c10_shortstr_255_byte_precondition.2.2 [65, 66] (by decide)⟩

end AMQ
